import Mathlib

/-!
Verification of the ingestion pipeline of the metu-assistant repository.

The Python sources (`src/scraper.py`, `src/pdf_processor.py`,
`src/embeddings.py`, `src/config.py`) are shallowly embedded below.
External effects (HTTP fetching plus HTML parsing, `urllib.parse.urljoin`,
PDF text extraction) are modelled as explicit function parameters; the
repository's own logic (URL validation, frontier management, dedup,
filename sanitization, statistics) is translated directly.

Python's `str` operations used by the code are modelled over `List Char`:
`x in y` is the substring test, `str.lower` is mapped per character
(faithful on ASCII, which is all the code compares against),
`str.isalnum` is modelled on the Latin-1 range (see `pyIsAlnum`), and
`urllib.parse.urlparse` is modelled by `schemeRest` / `netlocList` /
`pathList` following CPython's `urlsplit`: an optional scheme before the
first `:`, a network location only after a leading `//`, with `/`, `?`
and `#` terminating the netloc and `?`, `#` terminating the path.

Python's `list(set(xs))` returns the distinct elements of `xs` in an
unspecified order; it is modelled by `List.dedup`.  No claim below
depends on the ordering of a deduplicated list.
-/

/-- Python `needle in hay` on strings: substring test. -/
def pyInStr (needle hay : String) : Bool :=
  decide (needle.toList <:+: hay.toList)

/-- Python `s.lower()`, modelled per character (ASCII-faithful; the code
only compares lowercased strings against ASCII suffixes). -/
def pyLower (s : String) : String :=
  (s.toList.map Char.toLower).asString

/-- Python `s.endswith(suf)`. -/
def pyEndsWith (s suf : String) : Bool :=
  suf.toList.isSuffixOf s.toList

/-- Python `s.startswith(pre)`. -/
def pyStartsWith (s pre : String) : Bool :=
  pre.toList.isPrefixOf s.toList

/-- Python `s.strip(c)` for a single strip character. -/
def stripBoth (t : Char) (l : List Char) : List Char :=
  ((l.dropWhile (· = t)).reverse.dropWhile (· = t)).reverse

/-- Python `s.rstrip(c)` for a single strip character. -/
def rstripChar (t : Char) (l : List Char) : List Char :=
  (l.reverse.dropWhile (· = t)).reverse

/-- `url.split('#')[0]`: everything before the first `#`. -/
def stripFragment (u : String) : String :=
  (u.toList.takeWhile (· ≠ '#')).asString

/-- Characters allowed in a URL scheme (CPython `scheme_chars`). -/
def schemeChar (c : Char) : Bool :=
  c.isAlphanum || c = '+' || c = '-' || c = '.'

/-- A valid scheme is nonempty, starts with a letter, and uses only
scheme characters (CPython `urlsplit` scheme detection). -/
def validScheme : List Char → Bool
  | [] => false
  | c :: t => c.isAlpha && t.all schemeChar

/-- The URL with its scheme (if a valid one is present) removed,
following CPython `urlsplit`. -/
def schemeRest (l : List Char) : List Char :=
  match l.dropWhile (· ≠ ':') with
  | c :: rest =>
    if c = ':' ∧ validScheme (l.takeWhile (· ≠ ':')) then rest else l
  | [] => l

/-- Characters that terminate the network-location component. -/
def notNetlocEnd (c : Char) : Bool :=
  !(c = '/' || c = '?' || c = '#')

/-- Characters that terminate the path component. -/
def notPathEnd (c : Char) : Bool :=
  !(c = '?' || c = '#')

/-- `urlparse(url).netloc`: present only after a leading `//` once the
scheme is removed, terminated by `/`, `?` or `#`. -/
def netlocList (l : List Char) : List Char :=
  match schemeRest l with
  | c1 :: c2 :: r =>
    if c1 = '/' ∧ c2 = '/' then r.takeWhile notNetlocEnd else []
  | _ => []

/-- `urlparse(url).path`: what follows the netloc (or the whole
scheme-less remainder), terminated by `?` or `#`. -/
def pathList (l : List Char) : List Char :=
  match schemeRest l with
  | c1 :: c2 :: r =>
    if c1 = '/' ∧ c2 = '/' then (r.dropWhile notNetlocEnd).takeWhile notPathEnd
    else (c1 :: c2 :: r).takeWhile notPathEnd
  | r0 => r0.takeWhile notPathEnd

/-- String-level `urlparse(url).netloc`. -/
def netlocStr (u : String) : String :=
  (netlocList u.toList).asString

/-- String-level `urlparse(url).path`. -/
def pathStr (u : String) : String :=
  (pathList u.toList).asString

/-- Python `c.isalnum()`, modelled on the Latin-1 range: ASCII letters
and digits plus the Latin-1 alphanumerics (ª ² ³ µ ¹ º ¼ ½ ¾ À–Ö Ø–ö
ø–ÿ).  Characters above U+00FF are conservatively mapped to `false`;
none of the concrete inputs considered below use them. -/
def pyIsAlnum (c : Char) : Bool :=
  c.isAlphanum ||
    (c.toNat = 0xAA || c.toNat = 0xB2 || c.toNat = 0xB3 || c.toNat = 0xB5 ||
     c.toNat = 0xB9 || c.toNat = 0xBA ||
     (0xBC ≤ c.toNat && c.toNat ≤ 0xBE) ||
     (0xC0 ≤ c.toNat && c.toNat ≤ 0xD6) ||
     (0xD8 ≤ c.toNat && c.toNat ≤ 0xF6) ||
     (0xF8 ≤ c.toNat && c.toNat ≤ 0xFF))

/-- `"".join(c if c.isalnum() or c in '._-' else '_' for c in filename)`
from `save_scraped_content` and `download_pdf`. -/
def sanitizeFilename (s : String) : String :=
  (s.toList.map (fun c =>
    if pyIsAlnum c || c = '.' || c = '_' || c = '-' then c else '_')).asString

/-! ## Scraper (`src/scraper.py`) -/

/-- `skip_extensions` from `is_valid_url`. -/
def skip_extensions : List String :=
  [".jpg", ".jpeg", ".png", ".gif", ".css", ".js", ".ico", ".svg"]

/-- `is_valid_url(url, base_domain)`: same domain (substring test on the
netloc), no blocked file-type suffix on the lowercased URL, and not a
fragment-only, `mailto:` or `tel:` reference. -/
def is_valid_url (url : String) (base_domain : String) : Bool :=
  if !(pyInStr base_domain (netlocStr url)) then false
  else if skip_extensions.any (fun ext => pyEndsWith (pyLower url) ext) then false
  else if pyStartsWith url "#" || pyInStr "mailto:" url || pyInStr "tel:" url then false
  else true

/-- Outcome of a successful `requests.get` + `BeautifulSoup` parse of one
page: the extracted body text (`extract_text_from_html`) and the raw
`href` attributes of its `<a href=...>` anchors, in document order. -/
structure FetchResult where
  text : String
  anchors : List String
deriving Repr

/-- The crawler's external collaborators: `urljoin current_url href`
(stdlib URL resolution) and the network fetch + parse, where `none`
models any exception caught by `scrape_page`'s `try`. -/
structure CrawlConfig where
  join : String → String → String
  fetch : String → Option FetchResult

/-- `extract_links(soup, current_url, base_domain)`: resolve each anchor
against the page URL, keep the valid ones, strip fragments, and
deduplicate (`list(set(links))`). -/
def extract_links (cfg : CrawlConfig) (current_url base_domain : String)
    (anchors : List String) : List String :=
  (((anchors.map (cfg.join current_url)).filter
      (fun u => is_valid_url u base_domain)).map stripFragment).dedup

/-- `extract_pdf_links(soup, current_url)`: every anchor whose raw href
ends with `.pdf` (case-insensitive), resolved against the page URL, and
deduplicated.  No domain or path filter is applied. -/
def extract_pdf_links (cfg : CrawlConfig) (current_url : String)
    (anchors : List String) : List String :=
  ((anchors.filter (fun h => pyEndsWith (pyLower h) ".pdf")).map
    (cfg.join current_url)).dedup

/-- `scrape_page(url)`: returns `(text, page_links, pdf_links)` or `none`
on any fetch/parse failure.  `base_domain` is the netloc of the page
being scraped. -/
def scrape_page (cfg : CrawlConfig) (url : String) :
    Option (String × List String × List String) :=
  match cfg.fetch url with
  | none => none
  | some r =>
    some (r.text, extract_links cfg url (netlocStr url) r.anchors,
          extract_pdf_links cfg url r.anchors)

/-- The filename computed by `save_scraped_content(url, content)`:
`f"{parsed.netloc}_{path-with-slashes-as-underscores or 'index'}.txt"`,
then sanitized. -/
def save_scraped_content (url : String) : String :=
  let netloc := netlocStr url
  let pp := ((stripBoth '/' (pathStr url).toList).map
    (fun c => if c = '/' then '_' else c)).asString
  let path_parts := if pp = "" then "index" else pp
  sanitizeFilename (netloc ++ "_" ++ path_parts ++ ".txt")

/-- Observable actions of the crawl loop: a fetch attempt (with its
success bit), the politeness `time.sleep(SCRAPE_DELAY)`, and a
duplicate-pop skip. -/
inductive CrawlEvent where
  | attempt (url : String) (ok : Bool)
  | sleep
  | skip (url : String)
deriving Repr, DecidableEq

/-- State of the per-seed crawl loop in `run_scraper`, instrumented with
the list of URLs passed to `scrape_page` (`fetched`), the URLs appended
to the frontier by link discovery (`enqueued`), the page writes
(`savedPages`), and the event trace. -/
structure CrawlState where
  visited : List String
  toVisit : List String
  pagesScraped : Nat
  pagesFailed : Nat
  pdfsFound : Nat
  allPdfLinks : List String
  savedPages : List (String × String)
  fetched : List String
  enqueued : List String
  events : List CrawlEvent
deriving Repr

/-- The link-enqueueing loop of `run_scraper`: append each discovered
link that is not yet visited and not yet queued, provided its path
starts with the seed's base path (or the seed has an empty base path).
The queue membership test sees links appended earlier in the same
pass, exactly as the Python list does. -/
def addLinks (bp : String) (visited : List String) (tv : List String) :
    List String → List String
  | [] => tv
  | link :: ls =>
    if link ∉ visited ∧ link ∉ tv then
      if bp ≠ "" ∧ pyStartsWith (pathStr link) bp then
        addLinks bp visited (tv ++ [link]) ls
      else if bp = "" then
        addLinks bp visited (tv ++ [link]) ls
      else
        addLinks bp visited tv ls
    else
      addLinks bp visited tv ls

/-- One pass of the `while to_visit and len(visited) < max_pages` body:
pop the head; skip it if already visited; otherwise mark it visited,
scrape it, and on success save the page (when its text exceeds 100
characters), collect PDF links, enqueue new in-scope links, and sleep.
The `if pdf_links:` guard in the source only skips extending by an
empty list and adding zero, so it is modelled by an unconditional
append; the save of a long page is modelled by `if`-expressions on the
affected fields. -/
def crawlBody (cfg : CrawlConfig) (bp : String) (s : CrawlState) : CrawlState :=
  match s.toVisit with
  | [] => s
  | url :: rest =>
    if url ∈ s.visited then
      { s with toVisit := rest, events := s.events ++ [.skip url] }
    else
      let visited' := url :: s.visited
      match scrape_page cfg url with
      | none =>
        { s with visited := visited', toVisit := rest,
                 pagesFailed := s.pagesFailed + 1,
                 fetched := s.fetched ++ [url],
                 events := s.events ++ [.attempt url false] }
      | some (text, page_links, pdf_links) =>
        let tv' := addLinks bp visited' rest page_links
        { s with visited := visited', toVisit := tv',
                 pagesScraped :=
                   s.pagesScraped + (if 100 < text.length then 1 else 0),
                 savedPages := s.savedPages ++
                   (if 100 < text.length then [(save_scraped_content url, text)]
                    else []),
                 pdfsFound := s.pdfsFound + pdf_links.length,
                 allPdfLinks := s.allPdfLinks ++ pdf_links,
                 fetched := s.fetched ++ [url],
                 enqueued := s.enqueued ++ tv'.drop rest.length,
                 events := s.events ++ [.attempt url true, .sleep] }

/-- Negation of the `while` guard: the loop stops when the frontier is
empty or the visited set has reached `max_pages`. -/
def loopDone (mp : Nat) (s : CrawlState) : Bool :=
  s.toVisit.isEmpty || decide (mp ≤ s.visited.length)

/-- The per-seed `while` loop of `run_scraper`.  Termination: each pass
either strictly grows the visited set (bounded by `mp` while the loop
runs) or strictly shrinks the frontier while leaving the visited set
unchanged. -/
def crawlLoop (cfg : CrawlConfig) (mp : Nat) (bp : String) (s : CrawlState) :
    CrawlState :=
  if loopDone mp s then s
  else crawlLoop cfg mp bp (crawlBody cfg bp s)
termination_by (mp - s.visited.length, s.toVisit.length)
decreasing_by
  rename_i hdone
  have hne : s.toVisit ≠ [] := by
    intro he
    simp [loopDone, he] at hdone
  have hlt : s.visited.length < mp := by
    by_contra hge
    simp [loopDone, Nat.le_of_not_lt hge] at hdone
  have hprog : (crawlBody cfg bp s).visited.length = s.visited.length + 1 ∨
      ((crawlBody cfg bp s).visited = s.visited ∧
        (crawlBody cfg bp s).toVisit.length < s.toVisit.length) := by
    rcases htv : s.toVisit with _ | ⟨url, rest⟩
    · exact absurd htv hne
    · by_cases hv : url ∈ s.visited
      · right
        simp [crawlBody, htv, hv]
      · rcases hsp : scrape_page cfg url with _ | ⟨⟨text, page_links, pdf_links⟩⟩
        · left
          simp [crawlBody, htv, hv, hsp]
        · left
          simp [crawlBody, htv, hv, hsp]
  rcases hprog with hgrow | ⟨heq, hshrink⟩
  · exact Prod.Lex.left _ _ (by omega)
  · rw [heq]
    exact Prod.Lex.right _ hshrink

/-- The state a seed's crawl starts from: empty visited set, the seed as
the only frontier entry, zeroed statistics. -/
def initState (seed : String) : CrawlState :=
  { visited := [], toVisit := [seed], pagesScraped := 0, pagesFailed := 0,
    pdfsFound := 0, allPdfLinks := [], savedPages := [], fetched := [],
    enqueued := [], events := [] }

/-- `base_path = urlparse(base_url).path.rstrip('/')`. -/
def basePathOf (seed : String) : String :=
  (rstripChar '/' (pathStr seed).toList).asString

/-- The crawl of one seed inside `run_scraper`. -/
def runSeed (cfg : CrawlConfig) (mp : Nat) (seed : String) : CrawlState :=
  crawlLoop cfg mp (basePathOf seed) (initState seed)

/-- The `stats` dictionary of `run_scraper`. -/
structure RunStats where
  pages_scraped : Nat
  pages_failed : Nat
  pdfs_found : Nat
deriving Repr, DecidableEq

/-- `run_scraper(base_urls, max_pages)`: crawl each seed with a fresh
visited set and frontier, accumulate the statistics, and return the
globally deduplicated PDF link list (`list(set(all_pdf_links))`). -/
def run_scraper (cfg : CrawlConfig) (base_urls : List String) (max_pages : Nat) :
    RunStats × List String :=
  let finals := base_urls.map (runSeed cfg max_pages)
  ({ pages_scraped := (finals.map (·.pagesScraped)).sum,
     pages_failed := (finals.map (·.pagesFailed)).sum,
     pdfs_found := (finals.map (·.pdfsFound)).sum },
   (finals.map (·.allPdfLinks)).flatten.dedup)

/-! ## PDF pipeline (`src/pdf_processor.py`) -/

/-- `Path(p).name`: the part after the last `/`, trailing slashes
removed first (as `pathlib` normalizes them away). -/
def lastSegment (s : String) : String :=
  (((rstripChar '/' s.toList).reverse.takeWhile (· ≠ '/')).reverse).asString

/-- `Path(n).stem`: the name minus its last suffix; a lone leading dot
is not a suffix. -/
def pyStem (n : String) : String :=
  let l := n.toList
  if '.' ∈ l then
    let st := ((l.reverse.dropWhile (· ≠ '.')).tail).reverse
    if st = [] then n else st.asString
  else n

/-- The PDF filename computed by `download_pdf(url)`: the URL-decoded
last path segment (`dec` models `urllib.parse.unquote`, an external
stdlib function), given a `.pdf` suffix when absent, then sanitized. -/
def download_pdf_name (dec : String → String) (url : String) : String :=
  let filename := dec (lastSegment (pathStr url))
  let filename2 :=
    if pyEndsWith (pyLower filename) ".pdf" then filename
    else filename ++ ".pdf"
  sanitizeFilename filename2

/-- The text-artifact filename written by `process_pdf(url)`:
`pdf_path.stem + ".txt"`. -/
def process_pdf_txt_name (dec : String → String) (url : String) : String :=
  pyStem (download_pdf_name dec url) ++ ".txt"

/-- Result of `process_local_pdfs`: the statistics dictionary, the text
artifacts on disk after the run (stem ↦ content, insertion order), and
the stems for which `extract_text_from_pdf` actually ran. -/
structure PdfRunOut where
  total : Nat
  extracted : Nat
  failed : Nat
  txts : List (String × String)
  reExtracted : List String
deriving Repr, DecidableEq

/-- The `for pdf_path in pdf_files` loop of `process_local_pdfs`:
`ex` is `extract_text_from_pdf` keyed by the PDF's stem (deterministic
for an unchanged file; it returns `""` on failure or an empty PDF), and
`txts` is the set of `.txt` artifacts, looked up by stem exactly as
`text_path.exists()` does.  A stem whose artifact exists is skipped and
counted as extracted; otherwise the text is extracted and written only
when nonempty. -/
def plpLoop (ex : String → String) :
    List String → List (String × String) → Nat → Nat → List String →
    Nat × Nat × List (String × String) × List String
  | [], txts, e, f, re => (e, f, txts, re)
  | stem :: rest, txts, e, f, re =>
    if (txts.lookup stem).isSome then
      plpLoop ex rest txts (e + 1) f re
    else
      let t := ex stem
      if t ≠ "" then
        plpLoop ex rest (txts ++ [(stem, t)]) (e + 1) f (re ++ [stem])
      else
        plpLoop ex rest txts e (f + 1) (re ++ [stem])

/-- `process_local_pdfs(pdf_dir)` over the stems of the `*.pdf` files
found by `glob` (distinct filenames in one directory), starting from
the text artifacts currently on disk. -/
def process_local_pdfs (ex : String → String) (pdfStems : List String)
    (txts : List (String × String)) : PdfRunOut :=
  match plpLoop ex pdfStems txts 0 0 [] with
  | (e, f, txts', re) =>
    { total := pdfStems.length, extracted := e, failed := f,
      txts := txts', reExtracted := re }

/-! ## Indexer (`src/embeddings.py`, constants from `src/config.py`) -/

/-- `CHUNK_SIZE` from `src/config.py`. -/
def CHUNK_SIZE : Nat := 2000

/-- `CHUNK_OVERLAP` from `src/config.py`. -/
def CHUNK_OVERLAP : Nat := 400

/-- Modelled from the spec: the chunk splitter used by
`chunk_documents` is `RecursiveCharacterTextSplitter` from an external
text-splitting library whose implementation is not part of this
repository.  Following the spec's chunking description (§3, §4.3):
chunks are contiguous substrings of the document, each chunk is at most
`cs` characters long, and each chunk after the first repeats the last
`ov` characters of its predecessor.  The fuel argument (instantiated
with the document length, an upper bound on the number of chunks)
makes the recursion structural. -/
def chunkAux (cs ov : Nat) : Nat → List Char → List (List Char)
  | 0, s => [s]
  | fuel + 1, s =>
    if s.length ≤ cs ∨ cs ≤ ov then [s]
    else s.take cs :: chunkAux cs ov fuel (s.drop (cs - ov))

/-- Modelled from the spec: split one document into overlapping chunks
(see `chunkAux`). -/
def chunkText (cs ov : Nat) (s : List Char) : List (List Char) :=
  chunkAux cs ov s.length s

/-- Concatenation of a chunk list with each non-first chunk's
`ov`-character overlap prefix removed (the reconstruction operation of
the spec's chunking invariant). -/
def reconChunks (ov : Nat) : List (List Char) → List Char
  | [] => []
  | c :: rest => c ++ (rest.map (List.drop ov)).flatten

/-- `chunk_documents(documents)`: split every loaded document with the
configured `CHUNK_SIZE` / `CHUNK_OVERLAP`, concatenating the chunk
lists in document order. -/
def chunk_documents (docs : List String) : List String :=
  docs.flatMap (fun d => (chunkText CHUNK_SIZE CHUNK_OVERLAP d.toList).map
    List.asString)

/-- The filesystem facts `get_or_create_vector_store` consults: whether
`VECTORDB_DIR / f"{FAISS_INDEX_NAME}.faiss"` exists, and the documents
`load_documents()` finds in the content area. -/
structure IndexEnv where
  faiss_index_exists : Bool
  docs : List String
deriving Repr, DecidableEq

/-- Outcome of `get_or_create_vector_store`: the persisted store was
loaded, or a fresh store was built (and persisted) from these chunks. -/
inductive VSOutcome where
  | loaded : VSOutcome
  | created (chunks : List String) : VSOutcome
deriving Repr, DecidableEq

/-- `get_or_create_vector_store(force_recreate)`: load the persisted
store when the index file exists and no rebuild is forced; otherwise
load the documents, fail with the no-documents `ValueError` when there
are none, and otherwise chunk, embed, persist and return a fresh
store. -/
def get_or_create_vector_store (env : IndexEnv) (force_recreate : Bool) :
    Except String VSOutcome :=
  if env.faiss_index_exists && !force_recreate then
    .ok .loaded
  else if env.docs.isEmpty then
    .error "No documents found"
  else
    .ok (.created (chunk_documents env.docs))

/-- The enqueue rule of `run_scraper`, as a proposition about one link:
the seed has an empty base path, or the link's path starts with it. -/
def pathAllowed (bp : String) (u : String) : Prop :=
  bp = "" ∨ pyStartsWith (pathStr u) bp = true

/-- Scope property of a frontier entry: its netloc contains the seed's
netloc as a substring, its path satisfies the base-path confinement,
and it carries no fragment. -/
def UrlOk (seed bp u : String) : Prop :=
  pyInStr (netlocStr seed) (netlocStr u) = true ∧ pathAllowed bp u ∧
    stripFragment u = u

/-- Sleep discipline the code actually implements: every successful
fetch attempt is immediately followed by the politeness sleep; failed
attempts and duplicate skips are not followed by one. -/
def sleepsAfterSuccess : List CrawlEvent → Bool
  | [] => true
  | .attempt _ true :: .sleep :: r => sleepsAfterSuccess r
  | .attempt _ true :: [] => false
  | .attempt _ true :: .attempt _ _ :: _ => false
  | .attempt _ true :: .skip _ :: _ => false
  | .attempt _ false :: rest => sleepsAfterSuccess rest
  | .sleep :: rest => sleepsAfterSuccess rest
  | .skip _ :: rest => sleepsAfterSuccess rest

/-- The sleep discipline the claim states: after every fetch attempt
(success or failure), a sleep occurs before the next fetch attempt. -/
def noAttemptBeforeSleep : List CrawlEvent → Bool
  | [] => true
  | .sleep :: _ => true
  | .attempt _ _ :: _ => false
  | .skip _ :: r => noAttemptBeforeSleep r

/-- Claim-level uniform-delay predicate: between any fetch attempt and
the next one there is a sleep. -/
def delayBetweenAll : List CrawlEvent → Bool
  | [] => true
  | .attempt _ _ :: rest => noAttemptBeforeSleep rest && delayBetweenAll rest
  | .sleep :: rest => delayBetweenAll rest
  | .skip _ :: rest => delayBetweenAll rest

/-- Invariant of the per-seed crawl loop. -/
structure CrawlInv (mp : Nat) (bp seed : String) (s : CrawlState) : Prop where
  fetched_len : s.fetched.length = s.visited.length
  visited_le : s.visited.length ≤ mp
  fetched_nd : s.fetched.Nodup
  fetched_vis : ∀ u ∈ s.fetched, u ∈ s.visited
  tv_nd : s.toVisit.Nodup
  tv_fresh : ∀ u ∈ s.toVisit, u ∉ s.visited
  tv_ok : ∀ u ∈ s.toVisit, u = seed ∨ UrlOk seed bp u
  vis_ok : ∀ u ∈ s.visited, u = seed ∨ UrlOk seed bp u
  enq_ok : ∀ u ∈ s.enqueued, UrlOk seed bp u
  pdf_len : s.pdfsFound = s.allPdfLinks.length
  ev_good : sleepsAfterSuccess s.events = true

/-! ## Concrete crawl instances used by the claim theorems -/

/-- A three-page site: the seed links to two in-scope pages, the first
of which fails to fetch. -/
def cfgC4 : CrawlConfig :=
  { join := fun _ h => h,
    fetch := fun u =>
      if u = "http://s.e/a" then
        some ⟨"t", ["http://s.e/a/b", "http://s.e/a/c"]⟩
      else if u = "http://s.e/a/c" then some ⟨"t", []⟩
      else none }

/-- A seed URL carrying a fragment whose page links to the same URL
without the fragment. -/
def cfgC5 : CrawlConfig :=
  { join := fun _ h => h,
    fetch := fun u =>
      if u = "http://d.com/p#f" then some ⟨"t", ["http://d.com/p"]⟩
      else if u = "http://d.com/p" then some ⟨"t", []⟩
      else none }

/-- Two in-scope pages that both link to the same off-domain PDF. -/
def cfgC10 : CrawlConfig :=
  { join := fun _ h => h,
    fetch := fun u =>
      if u = "http://s.e/a" then
        some ⟨"t", ["http://s.e/a/b", "http://x.org/d.pdf"]⟩
      else if u = "http://s.e/a/b" then some ⟨"t", ["http://x.org/d.pdf"]⟩
      else none }

/-- A configuration whose pages are never fetched, used to exercise the
link-filtering functions on their own. -/
def cfgScope : CrawlConfig :=
  { join := fun _ h => h, fetch := fun _ => none }


/-! ## List and string helper lemmas -/

theorem toList_asString (l : List Char) : (List.asString l).toList = l := rfl

theorem takeWhile_eq_self_of {α} (p : α → Bool) :
    ∀ l : List α, (∀ a ∈ l, p a = true) → l.takeWhile p = l
  | [], _ => rfl
  | a :: t, h => by
    have ha : p a = true := h a (List.mem_cons_self a t)
    simp only [List.takeWhile_cons, ha, if_true]
    rw [takeWhile_eq_self_of p t (fun b hb => h b (List.mem_cons_of_mem a hb))]

theorem takeWhile_append_stop {α} (p : α → Bool) (stop : α) (ys : List α)
    (hstop : p stop = false) :
    ∀ xs : List α, (xs ++ stop :: ys).takeWhile p = xs.takeWhile p
  | [] => by simp [List.takeWhile_cons, hstop]
  | a :: t => by
    by_cases ha : p a = true
    · simp only [List.cons_append, List.takeWhile_cons, ha, if_true]
      rw [takeWhile_append_stop p stop ys hstop t]
    · simp [List.cons_append, List.takeWhile_cons, Bool.eq_false_iff.mpr ha]

theorem dropWhile_eq_nil_of {α} (p : α → Bool) :
    ∀ l : List α, (∀ a ∈ l, p a = true) → l.dropWhile p = []
  | [], _ => rfl
  | a :: t, h => by
    have ha : p a = true := h a (List.mem_cons_self a t)
    simp only [List.dropWhile_cons, ha, if_true]
    exact dropWhile_eq_nil_of p t (fun b hb => h b (List.mem_cons_of_mem a hb))

theorem dropWhile_append_stop {α} (p : α → Bool) (stop : α) (ys : List α)
    (hstop : p stop = false) :
    ∀ xs : List α, (∀ a ∈ xs, p a = true) →
      ((xs ++ stop :: ys).dropWhile p = stop :: ys)
  | [] , _ => by simp [List.dropWhile_cons, hstop]
  | a :: t, h => by
    have ha : p a = true := h a (List.mem_cons_self a t)
    simp only [List.cons_append, List.dropWhile_cons, ha, if_true]
    exact dropWhile_append_stop p stop ys hstop t
      (fun b hb => h b (List.mem_cons_of_mem a hb))

theorem mem_split_first {α} [DecidableEq α] (x : α) :
    ∀ l : List α, x ∈ l → ∃ a b, l = a ++ x :: b ∧ ∀ c ∈ a, c ≠ x
  | [], h => absurd h (List.not_mem_nil x)
  | c :: t, h => by
    by_cases hc : c = x
    · exact ⟨[], t, by rw [hc]; rfl, by simp⟩
    · have ht : x ∈ t := by
        rcases List.mem_cons.mp h with h1 | h2
        · exact absurd h1.symm hc
        · exact h2
      obtain ⟨a, b, hab, ha⟩ := mem_split_first x t ht
      exact ⟨c :: a, b, by rw [List.cons_append, hab], by
        intro d hd
        rcases List.mem_cons.mp hd with h1 | h2
        · rw [h1]; exact hc
        · exact ha d h2⟩

theorem infix_trans {α} {a b c : List α} (h1 : a <:+: b) (h2 : b <:+: c) :
    a <:+: c := by
  obtain ⟨s1, t1, hb⟩ := h1
  obtain ⟨s2, t2, hc⟩ := h2
  exact ⟨s2 ++ s1, t1 ++ t2, by rw [← hc, ← hb]; simp⟩

theorem pyInStr_iff (needle hay : String) :
    pyInStr needle hay = true ↔ needle.toList <:+: hay.toList := by
  simp [pyInStr]

theorem pyInStr_refl (s : String) : pyInStr s s = true :=
  (pyInStr_iff s s).mpr (List.infix_refl _)

theorem pyInStr_trans {a b c : String} (h1 : pyInStr a b = true)
    (h2 : pyInStr b c = true) : pyInStr a c = true :=
  (pyInStr_iff a c).mpr
    (infix_trans ((pyInStr_iff a b).mp h1) ((pyInStr_iff b c).mp h2))

theorem stripFragment_idem (u : String) :
    stripFragment (stripFragment u) = stripFragment u := by
  unfold stripFragment
  rw [toList_asString, takeWhile_eq_self_of]
  intro a ha
  have := List.mem_takeWhile_imp ha
  simpa using this

theorem validScheme_hash (p : List Char) (h : '#' ∈ p) :
    validScheme p = false := by
  cases p with
  | nil => exact absurd h (List.not_mem_nil _)
  | cons c t =>
    rcases List.mem_cons.mp h with h1 | h2
    · have hc : ('#' : Char).isAlpha = false := by decide
      simp [validScheme, ← h1, hc]
    · have ht : t.all schemeChar = false := by
        apply Bool.eq_false_iff.mpr
        intro hall
        have hs : schemeChar '#' = true := List.all_eq_true.mp hall '#' h2
        have : schemeChar '#' = false := by decide
        rw [this] at hs
        exact Bool.false_ne_true hs
      simp [validScheme, ht]

theorem schemeRest_of_nil (l : List Char) (h : l.dropWhile (· ≠ ':') = []) :
    schemeRest l = l := by
  unfold schemeRest
  rw [h]

theorem schemeRest_of_cons (l : List Char) (c : Char) (rest : List Char)
    (h : l.dropWhile (· ≠ ':') = c :: rest) :
    schemeRest l =
      if c = ':' ∧ validScheme (l.takeWhile (· ≠ ':')) then rest else l := by
  unfold schemeRest
  rw [h]

theorem netlocList_of_two (l : List Char) (c1 c2 : Char) (r : List Char)
    (h : schemeRest l = c1 :: c2 :: r) :
    netlocList l = if c1 = '/' ∧ c2 = '/' then r.takeWhile notNetlocEnd else [] := by
  unfold netlocList
  rw [h]

theorem netlocList_of_nil (l : List Char) (h : schemeRest l = []) :
    netlocList l = [] := by
  unfold netlocList
  rw [h]

theorem netlocList_of_one (l : List Char) (c : Char) (h : schemeRest l = [c]) :
    netlocList l = [] := by
  unfold netlocList
  rw [h]

theorem schemeRest_hash (a b : List Char) (ha : ∀ c ∈ a, c ≠ '#') :
    ∃ q : List Char, (∀ c ∈ q, c ≠ '#') ∧ schemeRest a = q ∧
      schemeRest (a ++ '#' :: b) = q ++ '#' :: b := by
  have hstop : (fun c => decide (c ≠ ':')) ':' = false := by simp
  by_cases hcol : ':' ∈ a
  · obtain ⟨p, q', hpq, hp⟩ := mem_split_first ':' a hcol
    have hptrue : ∀ c ∈ p, (fun c => decide (c ≠ ':')) c = true := by
      intro c hc
      simpa using hp c hc
    have hdw_a : a.dropWhile (· ≠ ':') = ':' :: q' := by
      rw [hpq]
      exact dropWhile_append_stop _ ':' q' hstop p hptrue
    have htw_a : a.takeWhile (· ≠ ':') = p := by
      rw [hpq, takeWhile_append_stop _ ':' q' hstop p,
        takeWhile_eq_self_of _ p hptrue]
    have hab : a ++ '#' :: b = p ++ ':' :: (q' ++ '#' :: b) := by
      rw [hpq]
      simp
    have hdw_ab : (a ++ '#' :: b).dropWhile (· ≠ ':') = ':' :: (q' ++ '#' :: b) := by
      rw [hab]
      exact dropWhile_append_stop _ ':' _ hstop p hptrue
    have htw_ab : (a ++ '#' :: b).takeWhile (· ≠ ':') = p := by
      rw [hab, takeWhile_append_stop _ ':' _ hstop p,
        takeWhile_eq_self_of _ p hptrue]
    by_cases hv : validScheme p = true
    · refine ⟨q', ?_, ?_, ?_⟩
      · intro c hc
        apply ha
        rw [hpq]
        exact List.mem_append_right _ (List.mem_cons_of_mem _ hc)
      · rw [schemeRest_of_cons a ':' q' hdw_a, htw_a, if_pos ⟨rfl, hv⟩]
      · rw [schemeRest_of_cons _ ':' _ hdw_ab, htw_ab, if_pos ⟨rfl, hv⟩]
    · have hv' : ¬(':' = ':' ∧ validScheme p = true) := fun hc => hv hc.2
      refine ⟨a, ha, ?_, ?_⟩
      · rw [schemeRest_of_cons a ':' q' hdw_a, htw_a, if_neg hv']
      · rw [schemeRest_of_cons _ ':' _ hdw_ab, htw_ab, if_neg hv']
  · have hatrue : ∀ c ∈ a, (fun c => decide (c ≠ ':')) c = true := by
      intro c hc
      simp only [decide_eq_true_eq]
      intro he
      exact hcol (he ▸ hc)
    have hdw_a : a.dropWhile (· ≠ ':') = [] := dropWhile_eq_nil_of _ a hatrue
    have hsr_a : schemeRest a = a := schemeRest_of_nil a hdw_a
    by_cases hcb : ':' ∈ b
    · obtain ⟨p2, q2, hb2, hp2⟩ := mem_split_first ':' b hcb
      have h1 : a ++ '#' :: b = (a ++ '#' :: p2) ++ ':' :: q2 := by
        rw [hb2]
        simp
      have hall : ∀ c ∈ a ++ '#' :: p2, (fun c => decide (c ≠ ':')) c = true := by
        intro c hc
        simp only [decide_eq_true_eq]
        intro he
        subst he
        rcases List.mem_append.mp hc with h3 | h4
        · exact hcol h3
        · rcases List.mem_cons.mp h4 with h5 | h6
          · exact absurd h5 (by decide)
          · exact hp2 ':' h6 rfl
      have hdw_ab : (a ++ '#' :: b).dropWhile (· ≠ ':') = ':' :: q2 := by
        rw [h1]
        exact dropWhile_append_stop _ ':' q2 hstop _ hall
      have htw_ab : (a ++ '#' :: b).takeWhile (· ≠ ':') = a ++ '#' :: p2 := by
        rw [h1, takeWhile_append_stop _ ':' q2 hstop _,
          takeWhile_eq_self_of _ _ hall]
      have hv : validScheme (a ++ '#' :: p2) = false :=
        validScheme_hash _ (List.mem_append_right a (List.mem_cons_self _ _))
      refine ⟨a, ha, hsr_a, ?_⟩
      rw [schemeRest_of_cons _ ':' _ hdw_ab, htw_ab, if_neg]
      intro hc
      rw [hv] at hc
      exact Bool.false_ne_true hc.2
    · have hall : ∀ c ∈ a ++ '#' :: b, (fun c => decide (c ≠ ':')) c = true := by
        intro c hc
        simp only [decide_eq_true_eq]
        intro he
        subst he
        rcases List.mem_append.mp hc with h3 | h4
        · exact hcol h3
        · rcases List.mem_cons.mp h4 with h5 | h6
          · exact absurd h5 (by decide)
          · exact hcb h6
      have hdw_ab : (a ++ '#' :: b).dropWhile (· ≠ ':') = [] :=
        dropWhile_eq_nil_of _ _ hall
      exact ⟨a, ha, hsr_a, schemeRest_of_nil _ hdw_ab⟩

theorem netlocList_hash (a b : List Char) (ha : ∀ c ∈ a, c ≠ '#') :
    netlocList (a ++ '#' :: b) = netlocList a := by
  obtain ⟨q, hq, hqa, hqab⟩ := schemeRest_hash a b ha
  have hhash : ('#' : Char) ≠ '/' := by decide
  rcases q with _ | ⟨c1, _ | ⟨c2, r⟩⟩
  · rw [netlocList_of_nil a hqa]
    cases b with
    | nil =>
      rw [netlocList_of_one _ '#' hqab]
    | cons x xs =>
      rw [netlocList_of_two _ '#' x xs hqab, if_neg]
      intro hc
      exact hhash hc.1
  · rw [netlocList_of_one a c1 hqa]
    rw [show (c1 :: [] : List Char) ++ '#' :: b = c1 :: '#' :: b from rfl] at hqab
    rw [netlocList_of_two _ c1 '#' b hqab, if_neg]
    intro hc
    exact hhash hc.2
  · rw [netlocList_of_two a c1 c2 r hqa]
    rw [show (c1 :: c2 :: r) ++ '#' :: b = c1 :: c2 :: (r ++ '#' :: b) from rfl]
      at hqab
    rw [netlocList_of_two _ c1 c2 _ hqab]
    by_cases hc : c1 = '/' ∧ c2 = '/'
    · rw [if_pos hc, if_pos hc,
        takeWhile_append_stop notNetlocEnd '#' b (by decide) r]
    · rw [if_neg hc, if_neg hc]

theorem netlocList_strip (l : List Char) :
    netlocList (l.takeWhile (· ≠ '#')) = netlocList l := by
  by_cases hm : '#' ∈ l
  · obtain ⟨a, b, hab, ha⟩ := mem_split_first '#' l hm
    have htw : l.takeWhile (· ≠ '#') = a := by
      rw [hab, takeWhile_append_stop _ '#' b (by simp) a,
        takeWhile_eq_self_of]
      intro c hc
      simpa using ha c hc
    rw [htw, hab, netlocList_hash a b ha]
  · rw [takeWhile_eq_self_of]
    intro c hc
    simp only [decide_eq_true_eq]
    intro he
    exact hm (he ▸ hc)

theorem netlocStr_stripFragment (u : String) :
    netlocStr (stripFragment u) = netlocStr u := by
  unfold netlocStr stripFragment
  rw [toList_asString, netlocList_strip]

/-! ## Crawl loop infrastructure -/

theorem crawlLoop_stop (cfg : CrawlConfig) (mp : Nat) (bp : String)
    (s : CrawlState) (h : loopDone mp s = true) :
    crawlLoop cfg mp bp s = s := by
  unfold crawlLoop
  rw [if_pos h]

theorem crawlLoop_go (cfg : CrawlConfig) (mp : Nat) (bp : String)
    (s : CrawlState) (h : loopDone mp s = false) :
    crawlLoop cfg mp bp s = crawlLoop cfg mp bp (crawlBody cfg bp s) := by
  conv_lhs => rw [crawlLoop]
  rw [if_neg (by rw [h]; exact Bool.false_ne_true)]

theorem crawlLoop_inv (cfg : CrawlConfig) (mp : Nat) (bp : String)
    (Q : CrawlState → Prop)
    (hbody : ∀ s, loopDone mp s = false → Q s → Q (crawlBody cfg bp s)) :
    ∀ s, Q s → Q (crawlLoop cfg mp bp s) := by
  intro s
  induction s using crawlLoop.induct cfg mp bp with
  | case1 s h =>
    intro hq
    rw [crawlLoop_stop cfg mp bp s h]
    exact hq
  | case2 s h ih =>
    intro hq
    have hf : loopDone mp s = false := Bool.eq_false_iff.mpr h
    rw [crawlLoop_go cfg mp bp s hf]
    exact ih (hbody s hf hq)

theorem crawlLoop_rel (cfg : CrawlConfig) (mp : Nat) (bp : String)
    (R : CrawlState → CrawlState → Prop)
    (hrefl : ∀ s, R s s)
    (htrans : ∀ a b c, R a b → R b c → R a c)
    (hstep : ∀ s, loopDone mp s = false → R s (crawlBody cfg bp s)) :
    ∀ s, R s (crawlLoop cfg mp bp s) := by
  intro s
  induction s using crawlLoop.induct cfg mp bp with
  | case1 s h =>
    rw [crawlLoop_stop cfg mp bp s h]
    exact hrefl s
  | case2 s h ih =>
    have hf : loopDone mp s = false := Bool.eq_false_iff.mpr h
    rw [crawlLoop_go cfg mp bp s hf]
    exact htrans _ _ _ (hstep s hf) ih

theorem crawlLoop_done (cfg : CrawlConfig) (mp : Nat) (bp : String) :
    ∀ s, loopDone mp (crawlLoop cfg mp bp s) = true := by
  intro s
  induction s using crawlLoop.induct cfg mp bp with
  | case1 s h =>
    rw [crawlLoop_stop cfg mp bp s h]
    exact h
  | case2 s h ih =>
    rw [crawlLoop_go cfg mp bp s (Bool.eq_false_iff.mpr h)]
    exact ih

theorem addLinks_spec (bp : String) (visited : List String) :
    ∀ (links tv : List String), ∃ ext,
      addLinks bp visited tv links = tv ++ ext ∧
      ∀ u ∈ ext, u ∈ links ∧ u ∉ visited ∧ pathAllowed bp u
  | [], tv => ⟨[], by simp [addLinks]⟩
  | link :: ls, tv => by
    have lift : ∀ u, u ∈ ls → u ∈ link :: ls := fun u hu =>
      List.mem_cons_of_mem _ hu
    by_cases h1 : link ∉ visited ∧ link ∉ tv
    · by_cases h2 : bp ≠ "" ∧ pyStartsWith (pathStr link) bp = true
      · obtain ⟨ext, heq, hprop⟩ := addLinks_spec bp visited ls (tv ++ [link])
        refine ⟨link :: ext, ?_, ?_⟩
        · simp only [addLinks, if_pos h1, if_pos h2]
          rw [heq]
          simp
        · intro u hu
          rcases List.mem_cons.mp hu with h3 | h4
          · subst h3
            exact ⟨List.mem_cons_self _ _, h1.1, Or.inr h2.2⟩
          · obtain ⟨hm, hv, hp⟩ := hprop u h4
            exact ⟨lift u hm, hv, hp⟩
      · by_cases h3 : bp = ""
        · obtain ⟨ext, heq, hprop⟩ := addLinks_spec bp visited ls (tv ++ [link])
          refine ⟨link :: ext, ?_, ?_⟩
          · simp only [addLinks, if_pos h1, if_neg h2, if_pos h3]
            rw [heq]
            simp
          · intro u hu
            rcases List.mem_cons.mp hu with h4 | h5
            · subst h4
              exact ⟨List.mem_cons_self _ _, h1.1, Or.inl h3⟩
            · obtain ⟨hm, hv, hp⟩ := hprop u h5
              exact ⟨lift u hm, hv, hp⟩
        · obtain ⟨ext, heq, hprop⟩ := addLinks_spec bp visited ls tv
          refine ⟨ext, ?_, ?_⟩
          · simp only [addLinks, if_pos h1, if_neg h2, if_neg h3]
            exact heq
          · intro u hu
            obtain ⟨hm, hv, hp⟩ := hprop u hu
            exact ⟨lift u hm, hv, hp⟩
    · obtain ⟨ext, heq, hprop⟩ := addLinks_spec bp visited ls tv
      refine ⟨ext, ?_, ?_⟩
      · simp only [addLinks, if_neg h1]
        exact heq
      · intro u hu
        obtain ⟨hm, hv, hp⟩ := hprop u hu
        exact ⟨lift u hm, hv, hp⟩

theorem addLinks_queue_sub (bp : String) (visited : List String) :
    ∀ (links tv : List String), tv <+: addLinks bp visited tv links := by
  intro links tv
  obtain ⟨ext, heq, -⟩ := addLinks_spec bp visited links tv
  exact ⟨ext, heq.symm⟩

theorem addLinks_nodup (bp : String) (visited : List String) :
    ∀ (links tv : List String), tv.Nodup → (addLinks bp visited tv links).Nodup
  | [], tv, h => h
  | link :: ls, tv, h => by
    by_cases h1 : link ∉ visited ∧ link ∉ tv
    · have htv : (tv ++ [link]).Nodup := by
        rw [List.nodup_append]
        exact ⟨h, List.nodup_singleton _, by
          intro a ha hb
          rw [List.mem_singleton] at hb
          exact h1.2 (hb ▸ ha)⟩
      by_cases h2 : bp ≠ "" ∧ pyStartsWith (pathStr link) bp = true
      · simp only [addLinks, if_pos h1, if_pos h2]
        exact addLinks_nodup bp visited ls (tv ++ [link]) htv
      · by_cases h3 : bp = ""
        · simp only [addLinks, if_pos h1, if_neg h2, if_pos h3]
          exact addLinks_nodup bp visited ls (tv ++ [link]) htv
        · simp only [addLinks, if_pos h1, if_neg h2, if_neg h3]
          exact addLinks_nodup bp visited ls tv h
    · simp only [addLinks, if_neg h1]
      exact addLinks_nodup bp visited ls tv h

theorem addLinks_not_visited (bp : String) (visited : List String)
    (links tv : List String) (h : ∀ u ∈ tv, u ∉ visited) :
    ∀ u ∈ addLinks bp visited tv links, u ∉ visited := by
  obtain ⟨ext, heq, hprop⟩ := addLinks_spec bp visited links tv
  rw [heq]
  intro u hu
  rcases List.mem_append.mp hu with h1 | h2
  · exact h u h1
  · exact (hprop u h2).2.1

theorem addLinks_drop (bp : String) (visited : List String)
    (links tv : List String) :
    ∀ u ∈ (addLinks bp visited tv links).drop tv.length,
      u ∈ links ∧ u ∉ visited ∧ pathAllowed bp u := by
  obtain ⟨ext, heq, hprop⟩ := addLinks_spec bp visited links tv
  rw [heq, List.drop_left]
  exact hprop

theorem extract_links_src (cfg : CrawlConfig) (cur d : String)
    (anchors : List String) :
    ∀ u ∈ extract_links cfg cur d anchors, ∃ h, h ∈ anchors ∧
      is_valid_url (cfg.join cur h) d = true ∧
      u = stripFragment (cfg.join cur h) := by
  intro u hu
  unfold extract_links at hu
  rw [List.mem_dedup] at hu
  obtain ⟨v, hv, rfl⟩ := List.mem_map.mp hu
  rw [List.mem_filter] at hv
  obtain ⟨hv1, hv2⟩ := hv
  obtain ⟨h, hh, rfl⟩ := List.mem_map.mp hv1
  exact ⟨h, hh, hv2, rfl⟩

theorem is_valid_url_dom {url d : String} (h : is_valid_url url d = true) :
    pyInStr d (netlocStr url) = true := by
  cases hb : pyInStr d (netlocStr url) with
  | true => rfl
  | false =>
    exfalso
    unfold is_valid_url at h
    rw [hb] at h
    simp at h

theorem extract_links_frag_free (cfg : CrawlConfig) (cur d : String)
    (anchors : List String) :
    ∀ u ∈ extract_links cfg cur d anchors, stripFragment u = u := by
  intro u hu
  obtain ⟨h, -, -, rfl⟩ := extract_links_src cfg cur d anchors u hu
  exact stripFragment_idem _

theorem sleepsAfterSuccess_append :
    ∀ a b : List CrawlEvent, sleepsAfterSuccess a = true →
      sleepsAfterSuccess b = true → sleepsAfterSuccess (a ++ b) = true
  | [], b, _, hb => by simpa
  | .attempt u true :: .sleep :: r, b, ha, hb => by
    have hr : sleepsAfterSuccess r = true := by
      simpa [sleepsAfterSuccess] using ha
    have := sleepsAfterSuccess_append r b hr hb
    simpa [sleepsAfterSuccess] using this
  | .attempt u true :: [], b, ha, _ => by
    simp [sleepsAfterSuccess] at ha
  | .attempt u true :: .attempt v ok :: r, b, ha, _ => by
    simp [sleepsAfterSuccess] at ha
  | .attempt u true :: .skip w :: r, b, ha, _ => by
    simp [sleepsAfterSuccess] at ha
  | .attempt u false :: r, b, ha, hb => by
    have hr : sleepsAfterSuccess r = true := by
      simpa [sleepsAfterSuccess] using ha
    have := sleepsAfterSuccess_append r b hr hb
    simpa [sleepsAfterSuccess] using this
  | .sleep :: r, b, ha, hb => by
    have hr : sleepsAfterSuccess r = true := by
      simpa [sleepsAfterSuccess] using ha
    have := sleepsAfterSuccess_append r b hr hb
    simpa [sleepsAfterSuccess] using this
  | .skip w :: r, b, ha, hb => by
    have hr : sleepsAfterSuccess r = true := by
      simpa [sleepsAfterSuccess] using ha
    have := sleepsAfterSuccess_append r b hr hb
    simpa [sleepsAfterSuccess] using this

theorem crawlBody_skip (cfg : CrawlConfig) (bp : String) (s : CrawlState)
    (url : String) (rest : List String) (htv : s.toVisit = url :: rest)
    (hv : url ∈ s.visited) :
    crawlBody cfg bp s =
      { s with toVisit := rest, events := s.events ++ [.skip url] } := by
  simp [crawlBody, htv, hv]

theorem crawlBody_fail (cfg : CrawlConfig) (bp : String) (s : CrawlState)
    (url : String) (rest : List String) (htv : s.toVisit = url :: rest)
    (hnv : url ∉ s.visited) (hsp : scrape_page cfg url = none) :
    crawlBody cfg bp s =
      { s with visited := url :: s.visited, toVisit := rest,
               pagesFailed := s.pagesFailed + 1,
               fetched := s.fetched ++ [url],
               events := s.events ++ [.attempt url false] } := by
  simp [crawlBody, htv, hnv, hsp]

theorem crawlBody_ok (cfg : CrawlConfig) (bp : String) (s : CrawlState)
    (url : String) (rest : List String) (text : String)
    (page_links pdf_links : List String) (htv : s.toVisit = url :: rest)
    (hnv : url ∉ s.visited)
    (hsp : scrape_page cfg url = some (text, page_links, pdf_links)) :
    crawlBody cfg bp s =
      { s with visited := url :: s.visited,
               toVisit := addLinks bp (url :: s.visited) rest page_links,
               pagesScraped :=
                 s.pagesScraped + (if 100 < text.length then 1 else 0),
               savedPages := s.savedPages ++
                 (if 100 < text.length then [(save_scraped_content url, text)]
                  else []),
               pdfsFound := s.pdfsFound + pdf_links.length,
               allPdfLinks := s.allPdfLinks ++ pdf_links,
               fetched := s.fetched ++ [url],
               enqueued := s.enqueued ++
                 (addLinks bp (url :: s.visited) rest page_links).drop
                   rest.length,
               events := s.events ++ [.attempt url true, .sleep] } := by
  simp [crawlBody, htv, hnv, hsp]

theorem loopDone_false_ne (mp : Nat) (s : CrawlState)
    (hd : loopDone mp s = false) : s.toVisit ≠ [] := by
  intro he
  simp [loopDone, he] at hd

theorem loopDone_false_lt (mp : Nat) (s : CrawlState)
    (hd : loopDone mp s = false) : s.visited.length < mp := by
  by_contra hge
  simp [loopDone, Nat.le_of_not_lt hge] at hd

theorem scrape_page_links {cfg : CrawlConfig} {url text : String}
    {page_links pdf_links : List String}
    (hsp : scrape_page cfg url = some (text, page_links, pdf_links)) :
    ∃ anchors : List String,
      page_links = extract_links cfg url (netlocStr url) anchors ∧
      pdf_links = extract_pdf_links cfg url anchors := by
  unfold scrape_page at hsp
  rcases hf : cfg.fetch url with _ | r
  · rw [hf] at hsp
    exact absurd hsp (by simp)
  · rw [hf] at hsp
    simp only [Option.some.injEq, Prod.mk.injEq] at hsp
    exact ⟨r.anchors, hsp.2.1.symm, hsp.2.2.symm⟩

theorem crawlInv_body (cfg : CrawlConfig) (mp : Nat) (bp seed : String)
    (s : CrawlState) (hd : loopDone mp s = false) (h : CrawlInv mp bp seed s) :
    CrawlInv mp bp seed (crawlBody cfg bp s) := by
  have htvne := loopDone_false_ne mp s hd
  have hlt := loopDone_false_lt mp s hd
  rcases htv : s.toVisit with _ | ⟨url, rest⟩
  · exact absurd htv htvne
  have hurl_tv : url ∈ s.toVisit := by
    rw [htv]
    exact List.mem_cons_self _ _
  have hnv : url ∉ s.visited := h.tv_fresh url hurl_tv
  have hurlok : url = seed ∨ UrlOk seed bp url := h.tv_ok url hurl_tv
  have hnd := h.tv_nd
  rw [htv, List.nodup_cons] at hnd
  have hurl_rest : url ∉ rest := hnd.1
  have hrest_nd : rest.Nodup := hnd.2
  have hrest_tv : ∀ u ∈ rest, u ∈ s.toVisit := by
    intro u hu
    rw [htv]
    exact List.mem_cons_of_mem _ hu
  have hseed_url : pyInStr (netlocStr seed) (netlocStr url) = true := by
    rcases hurlok with hs | hok
    · rw [hs]
      exact pyInStr_refl _
    · exact hok.1
  have hfetched_nd :
      (s.fetched ++ [url]).Nodup := by
    rw [List.nodup_append]
    refine ⟨h.fetched_nd, List.nodup_singleton _, ?_⟩
    intro a ha hb
    rw [List.mem_singleton] at hb
    exact hnv (hb ▸ h.fetched_vis a ha)
  have hfetched_vis :
      ∀ u ∈ s.fetched ++ [url], u ∈ url :: s.visited := by
    intro u hu
    rcases List.mem_append.mp hu with h1 | h2
    · exact List.mem_cons_of_mem _ (h.fetched_vis u h1)
    · rw [List.mem_singleton] at h2
      rw [h2]
      exact List.mem_cons_self _ _
  have hvis_ok :
      ∀ u ∈ url :: s.visited, u = seed ∨ UrlOk seed bp u := by
    intro u hu
    rcases List.mem_cons.mp hu with h1 | h2
    · exact h1 ▸ hurlok
    · exact h.vis_ok u h2
  rcases hsp : scrape_page cfg url with _ | ⟨⟨text, page_links, pdf_links⟩⟩
  · rw [crawlBody_fail cfg bp s url rest htv hnv hsp]
    refine ⟨?_, ?_, ?_, ?_, ?_, ?_, ?_, ?_, ?_, ?_, ?_⟩
    · simp [h.fetched_len]
    · simpa using hlt
    · exact hfetched_nd
    · exact hfetched_vis
    · exact hrest_nd
    · intro u hu
      intro hmem
      rcases List.mem_cons.mp hmem with h1 | h2
      · exact hurl_rest (h1 ▸ hu)
      · exact h.tv_fresh u (hrest_tv u hu) h2
    · intro u hu
      exact h.tv_ok u (hrest_tv u hu)
    · exact hvis_ok
    · exact h.enq_ok
    · exact h.pdf_len
    · exact sleepsAfterSuccess_append _ _ h.ev_good (by
        simp [sleepsAfterSuccess])
  · obtain ⟨anchors, hpl, hpdl⟩ := scrape_page_links hsp
    have hnew : ∀ u, u ∈ page_links → pathAllowed bp u → UrlOk seed bp u := by
      intro u hupl hpa
      rw [hpl] at hupl
      obtain ⟨a, -, hval, hustrip⟩ :=
        extract_links_src cfg url (netlocStr url) anchors u hupl
      have hdom : pyInStr (netlocStr url)
          (netlocStr (cfg.join url a)) = true := is_valid_url_dom hval
      have hnet : netlocStr u = netlocStr (cfg.join url a) := by
        rw [hustrip]
        exact netlocStr_stripFragment _
      refine ⟨?_, hpa, ?_⟩
      · rw [hnet]
        exact pyInStr_trans hseed_url hdom
      · rw [hustrip]
        exact stripFragment_idem _
    have hrest_fresh : ∀ u ∈ rest, u ∉ url :: s.visited := by
      intro u hu hmem
      rcases List.mem_cons.mp hmem with h1 | h2
      · exact hurl_rest (h1 ▸ hu)
      · exact h.tv_fresh u (hrest_tv u hu) h2
    rw [crawlBody_ok cfg bp s url rest text page_links pdf_links htv hnv hsp]
    refine ⟨?_, ?_, ?_, ?_, ?_, ?_, ?_, ?_, ?_, ?_, ?_⟩
    · simp [h.fetched_len]
    · simpa using hlt
    · exact hfetched_nd
    · exact hfetched_vis
    · exact addLinks_nodup bp (url :: s.visited) page_links rest hrest_nd
    · exact addLinks_not_visited bp (url :: s.visited) page_links rest
        hrest_fresh
    · intro u hu
      obtain ⟨ext, heq, hprop⟩ :=
        addLinks_spec bp (url :: s.visited) page_links rest
      rw [heq] at hu
      rcases List.mem_append.mp hu with h1 | h2
      · exact h.tv_ok u (hrest_tv u h1)
      · obtain ⟨hm, -, hp⟩ := hprop u h2
        exact Or.inr (hnew u hm hp)
    · exact hvis_ok
    · intro u hu
      rcases List.mem_append.mp hu with h1 | h2
      · exact h.enq_ok u h1
      · obtain ⟨hm, -, hp⟩ :=
          addLinks_drop bp (url :: s.visited) page_links rest u h2
        exact hnew u hm hp
    · simp [h.pdf_len]
    · exact sleepsAfterSuccess_append _ _ h.ev_good (by
        simp [sleepsAfterSuccess])

theorem crawlInv_init (mp : Nat) (seed bp : String) :
    CrawlInv mp bp seed (initState seed) := by
  refine ⟨?_, ?_, ?_, ?_, ?_, ?_, ?_, ?_, ?_, ?_, ?_⟩ <;>
    simp [initState, sleepsAfterSuccess]

theorem crawlInv_runSeed (cfg : CrawlConfig) (mp : Nat) (seed : String) :
    CrawlInv mp (basePathOf seed) seed (runSeed cfg mp seed) := by
  unfold runSeed
  exact crawlLoop_inv cfg mp (basePathOf seed) _
    (fun s hd hq => crawlInv_body cfg mp (basePathOf seed) seed s hd hq)
    (initState seed) (crawlInv_init mp seed (basePathOf seed))

theorem crawlBody_visited_sub (cfg : CrawlConfig) (bp : String)
    (s : CrawlState) : s.visited ⊆ (crawlBody cfg bp s).visited := by
  rcases htv : s.toVisit with _ | ⟨url, rest⟩
  · intro a ha
    simpa [crawlBody, htv] using ha
  · by_cases hv : url ∈ s.visited
    · rw [crawlBody_skip cfg bp s url rest htv hv]
      exact fun a ha => ha
    · rcases hsp : scrape_page cfg url with _ | ⟨⟨text, page_links, pdf_links⟩⟩
      · rw [crawlBody_fail cfg bp s url rest htv hv hsp]
        exact fun a ha => List.mem_cons_of_mem _ ha
      · rw [crawlBody_ok cfg bp s url rest text page_links pdf_links htv hv hsp]
        exact fun a ha => List.mem_cons_of_mem _ ha

theorem crawlLoop_visited_sub (cfg : CrawlConfig) (mp : Nat) (bp : String)
    (s : CrawlState) : s.visited ⊆ (crawlLoop cfg mp bp s).visited := by
  exact crawlLoop_rel cfg mp bp (fun a b => a.visited ⊆ b.visited)
    (fun s => List.Subset.refl _)
    (fun a b c h1 h2 => List.Subset.trans h1 h2)
    (fun s _ => crawlBody_visited_sub cfg bp s) s

theorem runSeed_final (cfg : CrawlConfig) (mp : Nat) (seed : String) :
    (runSeed cfg mp seed).toVisit = [] ∨
      mp ≤ (runSeed cfg mp seed).visited.length := by
  have h := crawlLoop_done cfg mp (basePathOf seed) (initState seed)
  rw [loopDone] at h
  rcases Bool.or_eq_true_iff.mp h with h1 | h2
  · exact Or.inl (List.isEmpty_iff.mp h1)
  · exact Or.inr (of_decide_eq_true h2)

/-! ## Chunker lemmas -/

theorem chunkAux_len_le (cs ov : Nat) (hov : ov < cs) :
    ∀ (fuel : Nat) (s : List Char), s.length ≤ fuel →
      ∀ c ∈ chunkAux cs ov fuel s, c.length ≤ cs
  | 0, s, h, c, hc => by
    have hs : s = [] := List.length_eq_zero.mp (Nat.le_zero.mp h)
    subst hs
    rw [List.mem_singleton.mp hc]
    simp
  | fuel + 1, s, h, c, hc => by
    by_cases hb : s.length ≤ cs ∨ cs ≤ ov
    · rw [show chunkAux cs ov (fuel + 1) s = [s] from by
        simp only [chunkAux, if_pos hb]] at hc
      rw [List.mem_singleton.mp hc]
      rcases hb with h1 | h2
      · exact h1
      · omega
    · rw [show chunkAux cs ov (fuel + 1) s =
          s.take cs :: chunkAux cs ov fuel (s.drop (cs - ov)) from by
        simp only [chunkAux, if_neg hb]] at hc
      rcases List.mem_cons.mp hc with h1 | h2
      · rw [h1]
        simp [List.length_take]
      · have hlen : cs < s.length := by
          rcases not_or.mp hb with ⟨h1, -⟩
          omega
        have hfuel : (s.drop (cs - ov)).length ≤ fuel := by
          rw [List.length_drop]
          omega
        exact chunkAux_len_le cs ov hov fuel (s.drop (cs - ov)) hfuel c h2

theorem chunkAux_spec (cs ov : Nat) (hov : ov < cs) :
    ∀ (fuel : Nat) (s : List Char), s.length ≤ fuel →
      reconChunks ov (chunkAux cs ov fuel s) = s ∧
      ∃ c t, chunkAux cs ov fuel s = c :: t ∧
        (c.length = s.length ∨ c.length = cs)
  | 0, s, h => by
    have hs : s = [] := List.length_eq_zero.mp (Nat.le_zero.mp h)
    subst hs
    exact ⟨by simp [chunkAux, reconChunks], [], [], rfl, Or.inl rfl⟩
  | fuel + 1, s, h => by
    by_cases hb : s.length ≤ cs ∨ cs ≤ ov
    · rw [show chunkAux cs ov (fuel + 1) s = [s] from by
        simp only [chunkAux, if_pos hb]]
      exact ⟨by simp [reconChunks], s, [], rfl, Or.inl rfl⟩
    · have hlen : cs < s.length := by
        rcases not_or.mp hb with ⟨h1, -⟩
        omega
      have hfuel : (s.drop (cs - ov)).length ≤ fuel := by
        rw [List.length_drop]
        omega
      obtain ⟨hrec, c, t, hct, hclen⟩ :=
        chunkAux_spec cs ov hov fuel (s.drop (cs - ov)) hfuel
      have heq : chunkAux cs ov (fuel + 1) s =
          s.take cs :: chunkAux cs ov fuel (s.drop (cs - ov)) := by
        simp only [chunkAux, if_neg hb]
      rw [hct] at hrec
      have hs' : c ++ (t.map (List.drop ov)).flatten = s.drop (cs - ov) := by
        simpa [reconChunks] using hrec
      have hov_c : ov ≤ c.length := by
        have hdl : (s.drop (cs - ov)).length = s.length - (cs - ov) :=
          List.length_drop _ _
        rcases hclen with h1 | h2 <;> omega
      have hkey : c.drop ov ++ (t.map (List.drop ov)).flatten =
          s.drop cs := by
        have h1 : (c ++ (t.map (List.drop ov)).flatten).drop ov =
            c.drop ov ++ (t.map (List.drop ov)).flatten := by
          rw [List.drop_append_eq_append_drop,
            Nat.sub_eq_zero_of_le hov_c, List.drop_zero]
        rw [← h1, hs', List.drop_drop,
          show cs - ov + ov = cs from by omega]
      refine ⟨?_, s.take cs, chunkAux cs ov fuel (s.drop (cs - ov)), heq, ?_⟩
      · rw [heq, hct]
        show s.take cs ++ ((c :: t).map (List.drop ov)).flatten = s
        rw [List.map_cons, List.flatten_cons, hkey,
          List.take_append_drop]
      · right
        rw [List.length_take]
        omega

theorem chunkText_recon (cs ov : Nat) (hov : ov < cs) (s : List Char) :
    reconChunks ov (chunkText cs ov s) = s :=
  (chunkAux_spec cs ov hov s.length s le_rfl).1

theorem chunkText_len (cs ov : Nat) (hov : ov < cs) (s : List Char) :
    ∀ c ∈ chunkText cs ov s, c.length ≤ cs :=
  chunkAux_len_le cs ov hov s.length s le_rfl

/-! ## Local-PDF-processing lemmas -/

theorem lookup_append_of_isSome {p : String} {l : List (String × String)}
    (m : List (String × String)) (h : (l.lookup p).isSome = true) :
    ((l ++ m).lookup p).isSome = true := by
  induction l with
  | nil => simp [List.lookup] at h
  | cons a t ih =>
    rcases a with ⟨k, v⟩
    by_cases hk : p = k
    · simp [List.lookup, hk]
    · have hk' : (p == k) = false := by
        simpa using hk
      simp only [List.lookup, hk'] at h
      simpa [List.lookup, hk'] using ih h

theorem lookup_append_self (l : List (String × String)) (p t : String) :
    ((l ++ [(p, t)]).lookup p).isSome = true := by
  induction l with
  | nil => simp [List.lookup]
  | cons a r ih =>
    rcases a with ⟨k, v⟩
    by_cases hk : p = k
    · simp [List.lookup, hk]
    · have hk' : (p == k) = false := by
        simpa using hk
      simp [List.lookup, hk', ih]

theorem plpLoop_covers (ex : String → String) :
    ∀ (stems : List String) (txts : List (String × String)) (e f : Nat)
      (re : List String),
      (∀ p, (txts.lookup p).isSome = true →
        (((plpLoop ex stems txts e f re).2.2.1).lookup p).isSome = true) ∧
      (∀ p ∈ stems,
        (((plpLoop ex stems txts e f re).2.2.1).lookup p).isSome = true ∨
          ex p = "")
  | [], txts, e, f, re => ⟨fun p h => h, by simp⟩
  | stem :: rest, txts, e, f, re => by
    by_cases hs : (txts.lookup stem).isSome = true
    · have heq : plpLoop ex (stem :: rest) txts e f re =
          plpLoop ex rest txts (e + 1) f re := by
        simp only [plpLoop, if_pos hs]
      obtain ⟨hmono, hcov⟩ := plpLoop_covers ex rest txts (e + 1) f re
      rw [heq]
      refine ⟨hmono, ?_⟩
      intro p hp
      rcases List.mem_cons.mp hp with h1 | h2
      · exact Or.inl (hmono p (h1 ▸ hs))
      · exact hcov p h2
    · by_cases ht : ex stem ≠ ""
      · have heq : plpLoop ex (stem :: rest) txts e f re =
            plpLoop ex rest (txts ++ [(stem, ex stem)]) (e + 1) f
              (re ++ [stem]) := by
          simp only [plpLoop, if_neg hs, if_pos ht]
        obtain ⟨hmono, hcov⟩ := plpLoop_covers ex rest
          (txts ++ [(stem, ex stem)]) (e + 1) f (re ++ [stem])
        rw [heq]
        refine ⟨?_, ?_⟩
        · intro p h
          exact hmono p (lookup_append_of_isSome _ h)
        · intro p hp
          rcases List.mem_cons.mp hp with h1 | h2
          · subst h1
            exact Or.inl (hmono p (lookup_append_self txts p (ex p)))
          · exact hcov p h2
      · have heq : plpLoop ex (stem :: rest) txts e f re =
            plpLoop ex rest txts e (f + 1) (re ++ [stem]) := by
          simp only [plpLoop, if_neg hs, if_neg ht]
        obtain ⟨hmono, hcov⟩ := plpLoop_covers ex rest txts e (f + 1)
          (re ++ [stem])
        rw [heq]
        refine ⟨hmono, ?_⟩
        intro p hp
        rcases List.mem_cons.mp hp with h1 | h2
        · rw [not_not] at ht
          exact Or.inr (h1 ▸ ht)
        · exact hcov p h2

theorem plpLoop_stable (ex : String → String) :
    ∀ (stems : List String) (txts : List (String × String)) (e f : Nat)
      (re : List String),
      (∀ p ∈ stems, (txts.lookup p).isSome = true ∨ ex p = "") →
      (plpLoop ex stems txts e f re).2.2.1 = txts ∧
      (plpLoop ex stems txts e f re).2.2.2 =
        re ++ stems.filter (fun p => !(txts.lookup p).isSome)
  | [], txts, e, f, re, _ => ⟨rfl, by simp [plpLoop]⟩
  | stem :: rest, txts, e, f, re, hcov => by
    have hrest : ∀ p ∈ rest, (txts.lookup p).isSome = true ∨ ex p = "" :=
      fun p hp => hcov p (List.mem_cons_of_mem _ hp)
    by_cases hs : (txts.lookup stem).isSome = true
    · have heq : plpLoop ex (stem :: rest) txts e f re =
          plpLoop ex rest txts (e + 1) f re := by
        simp only [plpLoop, if_pos hs]
      obtain ⟨h1, h2⟩ := plpLoop_stable ex rest txts (e + 1) f re hrest
      rw [heq]
      refine ⟨h1, ?_⟩
      rw [h2, List.filter_cons]
      simp [hs]
    · have hex : ex stem = "" := by
        rcases hcov stem (List.mem_cons_self _ _) with h1 | h2
        · exact absurd h1 hs
        · exact h2
      have hex' : ¬(ex stem ≠ "") := by
        rw [not_not]
        exact hex
      have heq : plpLoop ex (stem :: rest) txts e f re =
          plpLoop ex rest txts e (f + 1) (re ++ [stem]) := by
        simp only [plpLoop, if_neg hs, if_neg hex']
      obtain ⟨h1, h2⟩ := plpLoop_stable ex rest txts e (f + 1)
        (re ++ [stem]) hrest
      rw [heq]
      refine ⟨h1, ?_⟩
      rw [h2, List.filter_cons]
      simp [hs]

theorem c4_events : (runSeed cfgC4 5 "http://s.e/a").events =
    [.attempt "http://s.e/a" true, .sleep,
     .attempt "http://s.e/a/b" false,
     .attempt "http://s.e/a/c" true, .sleep] := by
  unfold runSeed
  rw [crawlLoop_go _ _ _ _ (by decide), crawlLoop_go _ _ _ _ (by decide),
    crawlLoop_go _ _ _ _ (by decide), crawlLoop_stop _ _ _ _ (by decide)]
  decide

theorem c4_enqueued : (runSeed cfgC4 5 "http://s.e/a").enqueued =
    ["http://s.e/a/b", "http://s.e/a/c"] := by
  unfold runSeed
  rw [crawlLoop_go _ _ _ _ (by decide), crawlLoop_go _ _ _ _ (by decide),
    crawlLoop_go _ _ _ _ (by decide), crawlLoop_stop _ _ _ _ (by decide)]
  decide

theorem c5_fetched : (runSeed cfgC5 5 "http://d.com/p#f").fetched =
    ["http://d.com/p#f", "http://d.com/p"] := by
  unfold runSeed
  rw [crawlLoop_go _ _ _ _ (by decide), crawlLoop_go _ _ _ _ (by decide),
    crawlLoop_stop _ _ _ _ (by decide)]
  decide

theorem c10_pdfsFound : (runSeed cfgC10 5 "http://s.e/a").pdfsFound = 2 := by
  unfold runSeed
  rw [crawlLoop_go _ _ _ _ (by decide), crawlLoop_go _ _ _ _ (by decide),
    crawlLoop_stop _ _ _ _ (by decide)]
  decide

theorem c10_allPdfLinks : (runSeed cfgC10 5 "http://s.e/a").allPdfLinks =
    ["http://x.org/d.pdf", "http://x.org/d.pdf"] := by
  unfold runSeed
  rw [crawlLoop_go _ _ _ _ (by decide), crawlLoop_go _ _ _ _ (by decide),
    crawlLoop_stop _ _ _ _ (by decide)]
  decide

/-! ## Claim theorems -/

/-- C1: for every seed and finite `max_pages` budget the per-seed crawl
loop of `run_scraper` terminates (the loop is a total function),
performs at most `max_pages` fetch attempts — exactly one per element
of the visited set, so each non-duplicate pop strictly grows the
visited set — and exits once the frontier is empty or the visited set
has reached `max_pages`. -/
theorem claim_C1 (cfg : CrawlConfig) (mp : Nat) (seed : String) :
    (runSeed cfg mp seed).fetched.length ≤ mp ∧
    (runSeed cfg mp seed).fetched.length =
      (runSeed cfg mp seed).visited.length ∧
    ((runSeed cfg mp seed).toVisit = [] ∨
      mp ≤ (runSeed cfg mp seed).visited.length) := by
  have h := crawlInv_runSeed cfg mp seed
  refine ⟨?_, h.fetched_len, runSeed_final cfg mp seed⟩
  rw [h.fetched_len]
  exact h.visited_le

/-- C2: the frontier is FIFO (the loop pops the head and all additions
go to the tail), no URL is fetched twice in one seed's crawl, a link
already visited or already queued is never re-enqueued (so the queue
stays duplicate-free and disjoint from the visited set), the visited
set only grows, and each seed's crawl starts from a fresh empty
visited set. -/
theorem claim_C2 :
    (∀ (cfg : CrawlConfig) (mp : Nat) (seed : String),
      (runSeed cfg mp seed).fetched.Nodup) ∧
    (∀ (cfg : CrawlConfig) (mp : Nat) (bp : String) (s : CrawlState),
      s.visited ⊆ (crawlLoop cfg mp bp s).visited) ∧
    (∀ seed : String,
      (initState seed).visited = [] ∧ (initState seed).toVisit = [seed]) ∧
    (∀ (bp : String) (visited tv links : List String),
      tv <+: addLinks bp visited tv links) ∧
    (∀ (bp : String) (visited tv links : List String), tv.Nodup →
      (addLinks bp visited tv links).Nodup) ∧
    (∀ (bp : String) (visited tv links : List String),
      (∀ u ∈ tv, u ∉ visited) →
      ∀ u ∈ addLinks bp visited tv links, u ∉ visited) ∧
    (∀ (cfg : CrawlConfig) (bp : String) (s : CrawlState) (url : String)
      (rest : List String), s.toVisit = url :: rest →
      ∃ ext, (crawlBody cfg bp s).toVisit = rest ++ ext) := by
  refine ⟨?_, ?_, ?_, ?_, ?_, ?_, ?_⟩
  · exact fun cfg mp seed => (crawlInv_runSeed cfg mp seed).fetched_nd
  · exact crawlLoop_visited_sub
  · exact fun seed => ⟨rfl, rfl⟩
  · exact fun bp visited tv links => addLinks_queue_sub bp visited links tv
  · exact fun bp visited tv links h => addLinks_nodup bp visited links tv h
  · exact fun bp visited tv links h =>
      addLinks_not_visited bp visited links tv h
  · intro cfg bp s url rest htv
    by_cases hv : url ∈ s.visited
    · rw [crawlBody_skip cfg bp s url rest htv hv]
      exact ⟨[], by simp⟩
    · rcases hsp : scrape_page cfg url with _ | ⟨⟨text, page_links, pdf_links⟩⟩
      · rw [crawlBody_fail cfg bp s url rest htv hv hsp]
        exact ⟨[], by simp⟩
      · rw [crawlBody_ok cfg bp s url rest text page_links pdf_links htv hv
          hsp]
        obtain ⟨ext, heq, -⟩ :=
          addLinks_spec bp (url :: s.visited) page_links rest
        exact ⟨ext, heq⟩

/-- C2 witness: the hypothesis-bearing conjuncts of `claim_C2`
instantiated at concrete inputs. -/
theorem claim_C2_witness :
    ((["x"] : List String).Nodup ∧
      (addLinks "" ["v"] ["x"] ["y"]).Nodup) ∧
    ((∀ u ∈ (["x"] : List String), u ∉ (["v"] : List String)) ∧
      (∀ u ∈ addLinks "" ["v"] ["x"] ["y"], u ∉ (["v"] : List String))) ∧
    ((initState "u").toVisit = "u" :: [] ∧
      ∃ ext, (crawlBody cfgC4 "" (initState "u")).toVisit = [] ++ ext) :=
  ⟨⟨by decide, claim_C2.2.2.2.2.1 "" ["v"] ["x"] ["y"] (by decide)⟩,
   ⟨by decide, claim_C2.2.2.2.2.2.1 "" ["v"] ["x"] ["y"] (by decide)⟩,
   ⟨rfl, claim_C2.2.2.2.2.2.2 cfgC4 "" (initState "u") "u" [] rfl⟩⟩

/-- C3: every URL ever appended to the frontier by link discovery has a
netloc containing the seed's netloc (by substring-transitivity of the
per-page domain check) and satisfies the seed's path confinement;
every entry produced by `extract_links` stems from an anchor whose
resolved URL passed `is_valid_url` (same domain, no blocked extension,
not a fragment-only/`mailto:`/`tel:` reference) and equals that URL
with its fragment stripped; and on the claim's concrete examples an
`othersite.example` link is rejected while, under scope
`{univ.example, /dept}`, `/dept/sub` is enqueued and `/other` is
not. -/
theorem claim_C3 :
    (∀ (cfg : CrawlConfig) (mp : Nat) (seed : String),
      ∀ u ∈ (runSeed cfg mp seed).enqueued,
        pyInStr (netlocStr seed) (netlocStr u) = true ∧
        pathAllowed (basePathOf seed) u) ∧
    (∀ (cfg : CrawlConfig) (cur d : String) (anchors : List String),
      ∀ u ∈ extract_links cfg cur d anchors, ∃ h, h ∈ anchors ∧
        is_valid_url (cfg.join cur h) d = true ∧
        u = stripFragment (cfg.join cur h)) ∧
    is_valid_url "https://othersite.example/page" "univ.example" = false ∧
    addLinks "/dept" ["https://univ.example/dept"] []
      (extract_links cfgScope "https://univ.example/dept" "univ.example"
        ["https://univ.example/dept/sub", "https://univ.example/other",
         "https://othersite.example/page"]) =
      ["https://univ.example/dept/sub"] := by
  refine ⟨?_, extract_links_src, by decide, by decide⟩
  intro cfg mp seed u hu
  have h := (crawlInv_runSeed cfg mp seed).enq_ok u hu
  exact ⟨h.1, h.2.1⟩

/-- C3 witness: the membership conjuncts of `claim_C3` instantiated on
a concrete crawl and a concrete anchor list. -/
theorem claim_C3_witness :
    ("http://s.e/a/b" ∈ (runSeed cfgC4 5 "http://s.e/a").enqueued) ∧
    (pyInStr (netlocStr "http://s.e/a") (netlocStr "http://s.e/a/b") = true ∧
      pathAllowed (basePathOf "http://s.e/a") "http://s.e/a/b") ∧
    ("https://univ.example/dept/sub" ∈ extract_links cfgScope
      "https://univ.example/dept" "univ.example"
      ["https://univ.example/dept/sub"]) ∧
    (∃ h, h ∈ ["https://univ.example/dept/sub"] ∧
      is_valid_url (cfgScope.join "https://univ.example/dept" h)
        "univ.example" = true ∧
      "https://univ.example/dept/sub" =
        stripFragment (cfgScope.join "https://univ.example/dept" h)) := by
  have hm : "http://s.e/a/b" ∈ (runSeed cfgC4 5 "http://s.e/a").enqueued := by
    rw [c4_enqueued]
    decide
  have hm2 : "https://univ.example/dept/sub" ∈ extract_links cfgScope
      "https://univ.example/dept" "univ.example"
      ["https://univ.example/dept/sub"] := by decide
  exact ⟨hm, claim_C3.1 cfgC4 5 "http://s.e/a" _ hm, hm2,
    claim_C3.2.1 cfgScope "https://univ.example/dept" "univ.example" _ _ hm2⟩

/-- C4 counterexample: in the crawl of seed `http://s.e/a` under
`cfgC4`, the fetch of `http://s.e/a/b` fails and the loop `continue`s
straight to the fetch of `http://s.e/a/c` with no sleep in between, so
the claim that the crawler sleeps after every fetch attempt (success or
failure) is false on this run. -/
theorem claim_C4_counterexample :
    delayBetweenAll (runSeed cfgC4 5 "http://s.e/a").events = false := by
  rw [c4_events]
  decide

/-- C4 (amended): the politeness sleep happens after every successful
fetch, before the next fetch attempt; failed fetches and duplicate
skips `continue` without sleeping. -/
theorem claim_C4_amended (cfg : CrawlConfig) (mp : Nat) (seed : String) :
    sleepsAfterSuccess (runSeed cfg mp seed).events = true :=
  (crawlInv_runSeed cfg mp seed).ev_good

/-- C5 counterexample: the seed `http://d.com/p#f` and its discovered
link `http://d.com/p` differ only by fragment, yet both are fetched in
the same run — the seed enters the frontier without fragment stripping,
so it is a distinct frontier entry from its stripped form. -/
theorem claim_C5_counterexample :
    stripFragment "http://d.com/p#f" = stripFragment "http://d.com/p" ∧
    "http://d.com/p#f" ≠ "http://d.com/p" ∧
    "http://d.com/p#f" ∈ (runSeed cfgC5 5 "http://d.com/p#f").fetched ∧
    "http://d.com/p" ∈ (runSeed cfgC5 5 "http://d.com/p#f").fetched := by
  refine ⟨by decide, by decide, ?_, ?_⟩ <;> rw [c5_fetched] <;> decide

/-- C5 (amended): discovered links are fragment-stripped before being
enqueued, so two URLs differing only by fragment can both be fetched in
one seed's crawl only when one of them is the seed itself (which is
enqueued verbatim); for non-seed entries, URLs equal up to fragment are
the same frontier entry and at most one fetch occurs. -/
theorem claim_C5_amended (cfg : CrawlConfig) (mp : Nat) (seed A B : String)
    (hAB : stripFragment A = stripFragment B) (hne : A ≠ B)
    (hA : A ∈ (runSeed cfg mp seed).fetched)
    (hB : B ∈ (runSeed cfg mp seed).fetched) :
    A = seed ∨ B = seed := by
  have inv := crawlInv_runSeed cfg mp seed
  rcases inv.vis_ok A (inv.fetched_vis A hA) with h1 | h2
  · exact Or.inl h1
  · rcases inv.vis_ok B (inv.fetched_vis B hB) with h3 | h4
    · exact Or.inr h3
    · exact absurd (by rw [← h2.2.2, hAB, h4.2.2]) hne

/-- C5 witness: `claim_C5_amended` applied to the concrete run of
`cfgC5`, where the fragment-carrying member of the pair is indeed the
seed. -/
theorem claim_C5_witness :
    ("http://d.com/p#f" = "http://d.com/p#f" ∨
      "http://d.com/p" = "http://d.com/p#f") :=
  claim_C5_amended cfgC5 5 "http://d.com/p#f" "http://d.com/p#f"
    "http://d.com/p" (by decide) (by decide)
    (by rw [c5_fetched]; decide) (by rw [c5_fetched]; decide)

theorem asString_toList (s : String) : s.toList.asString = s := rfl

/-- C6 (chunker spec-modelled, see `chunkAux`): the configured overlap
is smaller than the configured chunk size, and for any maximum length
and overlap with `overlap < size`, every produced chunk is at most the
maximum length and concatenating the chunks with each non-first chunk's
overlap-length prefix removed reconstructs the document exactly. -/
theorem claim_C6 :
    CHUNK_OVERLAP < CHUNK_SIZE ∧
    ∀ (cs ov : Nat) (s : List Char), ov < cs →
      (∀ c ∈ chunkText cs ov s, c.length ≤ cs) ∧
      reconChunks ov (chunkText cs ov s) = s :=
  ⟨by decide, fun cs ov s hov =>
    ⟨chunkText_len cs ov hov s, chunkText_recon cs ov hov s⟩⟩

/-- C6 witness: `claim_C6` at the configured sizes on a concrete
document. -/
theorem claim_C6_witness :
    (400 : Nat) < 2000 ∧
    ((∀ c ∈ chunkText 2000 400 "doc".toList, c.length ≤ 2000) ∧
      reconChunks 400 (chunkText 2000 400 "doc".toList) = "doc".toList) :=
  ⟨by decide, claim_C6.2 2000 400 "doc".toList (by decide)⟩

/-- C7: `get_or_create_vector_store` returns the loaded persisted index
exactly when the `.faiss` index file exists and no rebuild is forced
(file existence is the sole load-vs-rebuild signal, whatever the
content area holds); otherwise it raises the no-documents error when
the content area is empty, and otherwise builds, persists and returns
a fresh index over the chunks of every loaded document. -/
theorem claim_C7 (env : IndexEnv) (force : Bool) :
    (get_or_create_vector_store env force = .ok .loaded ↔
      env.faiss_index_exists = true ∧ force = false) ∧
    ((env.faiss_index_exists = false ∨ force = true) → env.docs = [] →
      get_or_create_vector_store env force = .error "No documents found") ∧
    ((env.faiss_index_exists = false ∨ force = true) → env.docs ≠ [] →
      get_or_create_vector_store env force =
        .ok (.created (chunk_documents env.docs))) := by
  rcases env with ⟨fe, docs⟩
  cases fe <;> cases force <;> cases docs <;>
    simp [get_or_create_vector_store]

/-- C7 witness: the three branches of `claim_C7` at concrete
environments. -/
theorem claim_C7_witness :
    get_or_create_vector_store ⟨false, []⟩ false =
      .error "No documents found" ∧
    get_or_create_vector_store ⟨false, ["d"]⟩ false =
      .ok (.created (chunk_documents ["d"])) ∧
    get_or_create_vector_store ⟨true, ["d"]⟩ false = .ok .loaded :=
  ⟨(claim_C7 ⟨false, []⟩ false).2.1 (Or.inl rfl) rfl,
   (claim_C7 ⟨false, ["d"]⟩ false).2.2 (Or.inl rfl) (by decide),
   (claim_C7 ⟨true, ["d"]⟩ false).1.mpr ⟨rfl, rfl⟩⟩

/-- C8 counterexample: a directory with a single PDF whose text
extraction yields the empty string.  The first run writes no artifact,
so the second run over the unchanged directory extracts it again — the
claim that the second run re-extracts nothing is false.  (The artifact
set is unchanged nonetheless.) -/
theorem claim_C8_counterexample :
    (process_local_pdfs (fun _ => "") ["bad"] []).txts = [] ∧
    (process_local_pdfs (fun _ => "") ["bad"] []).reExtracted = ["bad"] ∧
    (process_local_pdfs (fun _ => "") ["bad"]
      (process_local_pdfs (fun _ => "") ["bad"] []).txts).reExtracted =
      ["bad"] := by
  refine ⟨?_, ?_, ?_⟩ <;> decide

/-- C8 (amended): running local PDF processing twice over an unchanged
directory leaves the artifact set unchanged; the second run skips every
PDF whose same-stem artifact exists and re-extracts exactly the PDFs
whose extraction produced no text; when the first run extracted text
from every PDF, the second run re-extracts nothing. -/
theorem claim_C8_amended (ex : String → String) (stems : List String)
    (txts : List (String × String)) :
    (process_local_pdfs ex stems
        (process_local_pdfs ex stems txts).txts).txts =
      (process_local_pdfs ex stems txts).txts ∧
    (process_local_pdfs ex stems
        (process_local_pdfs ex stems txts).txts).reExtracted =
      stems.filter (fun p =>
        !((process_local_pdfs ex stems txts).txts.lookup p).isSome) ∧
    ((∀ p ∈ stems, ex p ≠ "") →
      (process_local_pdfs ex stems
        (process_local_pdfs ex stems txts).txts).reExtracted = []) := by
  have hproj : ∀ ts : List (String × String),
      (process_local_pdfs ex stems ts).txts =
        (plpLoop ex stems ts 0 0 []).2.2.1 ∧
      (process_local_pdfs ex stems ts).reExtracted =
        (plpLoop ex stems ts 0 0 []).2.2.2 := by
    intro ts
    constructor <;> rfl
  have hcov := (plpLoop_covers ex stems txts 0 0 []).2
  have hc : ∀ p ∈ stems,
      (((process_local_pdfs ex stems txts).txts).lookup p).isSome = true ∨
        ex p = "" := by
    rw [(hproj txts).1]
    exact hcov
  obtain ⟨hst, hre⟩ := plpLoop_stable ex stems
    (process_local_pdfs ex stems txts).txts 0 0 [] hc
  refine ⟨?_, ?_, ?_⟩
  · rw [(hproj _).1, hst]
  · rw [(hproj _).2, hre]
    simp
  · intro hall
    rw [(hproj _).2, hre]
    simp only [List.nil_append]
    rw [List.filter_eq_nil_iff]
    intro p hp
    rcases hc p hp with h1 | h2
    · simp [h1]
    · exact absurd h2 (hall p hp)

/-- C8 witness: `claim_C8_amended` on a directory whose single PDF
extracts successfully, so the second run re-extracts nothing. -/
theorem claim_C8_witness :
    (∀ p ∈ (["a"] : List String), (fun _ => "t") p ≠ "") ∧
    (process_local_pdfs (fun _ => "t") ["a"]
      (process_local_pdfs (fun _ => "t") ["a"] []).txts).reExtracted = [] :=
  ⟨by decide, (claim_C8_amended (fun _ => "t") ["a"] []).2.2 (by decide)⟩

/-- C9 counterexample: the filename saved for the crawled page
`https://oidb.metu.edu.tr/tr/ödeme` contains `ö` — Python's
`str.isalnum` accepts non-ASCII letters, so the sanitized name is not
restricted to `[A-Za-z0-9._-]` as claimed. -/
theorem claim_C9_counterexample :
    'ö' ∈ (save_scraped_content "https://oidb.metu.edu.tr/tr/ödeme").toList ∧
    ('ö'.isAlphanum || 'ö' = '.' || 'ö' = '_' || 'ö' = '-') = false := by
  refine ⟨by decide, by decide⟩

/-- C9 (amended): every persisted artifact filename is restricted to
Unicode alphanumerics in the sense of Python `str.isalnum` (modelled on
Latin-1 by `pyIsAlnum`) plus `._-`, with every other character mapped
to `_` — on ASCII input this coincides with `[A-Za-z0-9._-]` and the
sanitizer is the identity; names are derived deterministically as
`{host}_{path-with-slashes-as-underscores}.txt` for crawled pages and
`{pdf-stem}.txt` for PDFs. -/
theorem claim_C9_amended :
    (∀ s : String, ∀ c ∈ (sanitizeFilename s).toList,
      pyIsAlnum c = true ∨ c = '.' ∨ c = '_' ∨ c = '-') ∧
    (∀ s : String,
      (∀ c ∈ s.toList,
        (c.isAlphanum || c = '.' || c = '_' || c = '-') = true) →
      sanitizeFilename s = s) ∧
    (∀ url : String, ∃ pathPart : String,
      save_scraped_content url =
        sanitizeFilename (netlocStr url ++ "_" ++ pathPart ++ ".txt")) ∧
    (∀ (dec : String → String) (url : String), ∃ nm : String,
      download_pdf_name dec url = sanitizeFilename nm) ∧
    (∀ (dec : String → String) (url : String),
      process_pdf_txt_name dec url =
        pyStem (download_pdf_name dec url) ++ ".txt") := by
  refine ⟨?_, ?_, ?_, ?_, ?_⟩
  · intro s c hc
    unfold sanitizeFilename at hc
    rw [toList_asString] at hc
    obtain ⟨a, -, rfl⟩ := List.mem_map.mp hc
    by_cases h : (pyIsAlnum a || a = '.' || a = '_' || a = '-') = true
    · rw [if_pos h]
      simp only [Bool.or_eq_true, decide_eq_true_eq] at h
      tauto
    · rw [if_neg h]
      exact Or.inr (Or.inr (Or.inl rfl))
  · intro s h
    unfold sanitizeFilename
    suffices hmap : ∀ l : List Char,
        (∀ c ∈ l, (c.isAlphanum || c = '.' || c = '_' || c = '-') = true) →
        l.map (fun c =>
          if pyIsAlnum c || c = '.' || c = '_' || c = '-' then c
          else '_') = l by
      rw [hmap s.toList h, asString_toList]
    intro l hl
    induction l with
    | nil => rfl
    | cons c t ih =>
      rw [List.map_cons, ih (fun d hd => hl d (List.mem_cons_of_mem _ hd))]
      have hc := hl c (List.mem_cons_self c t)
      have hcond : (pyIsAlnum c || c = '.' || c = '_' || c = '-') = true := by
        simp only [Bool.or_eq_true, decide_eq_true_eq] at hc ⊢
        rcases hc with ((h1 | h2) | h3) | h4
        · exact Or.inl (Or.inl (Or.inl (by simp [pyIsAlnum, h1])))
        · exact Or.inl (Or.inl (Or.inr h2))
        · exact Or.inl (Or.inr h3)
        · exact Or.inr h4
      rw [if_pos hcond]
  · intro url
    exact ⟨_, rfl⟩
  · intro dec url
    exact ⟨_, rfl⟩
  · intro dec url
    rfl

/-- C9 witness: the hypothesis-bearing conjuncts of `claim_C9_amended`
at concrete inputs. -/
theorem claim_C9_witness :
    ('a' ∈ (sanitizeFilename "a b").toList ∧
      (pyIsAlnum 'a' = true ∨ 'a' = '.' ∨ 'a' = '_' ∨ 'a' = '-')) ∧
    ((∀ c ∈ ("ab.txt" : String).toList,
        (c.isAlphanum || c = '.' || c = '_' || c = '-') = true) ∧
      sanitizeFilename "ab.txt" = "ab.txt") := by
  have h1 : 'a' ∈ (sanitizeFilename "a b").toList := by decide
  have h2 : ∀ c ∈ ("ab.txt" : String).toList,
      (c.isAlphanum || c = '.' || c = '_' || c = '-') = true := by decide
  exact ⟨⟨h1, claim_C9_amended.1 "a b" 'a' h1⟩,
    ⟨h2, claim_C9_amended.2.1 "ab.txt" h2⟩⟩

/-- C10: `extract_pdf_links` applies no domain or path filter — its
output is exactly the resolutions of the anchors whose raw href ends
with `.pdf` case-insensitively (so an off-domain PDF link is kept, as
the concrete `othersite` instance in the witness shows); the
`pdf_links` list returned by `run_scraper` contains no duplicates; and
the `pdfs_found` counter sums per-page discoveries, so it is at least
the length of that list and exceeds it on the concrete two-page run
where both pages link the same PDF. -/
theorem claim_C10 :
    (∀ (cfg : CrawlConfig) (cur : String) (anchors : List String)
      (u : String),
      u ∈ extract_pdf_links cfg cur anchors ↔
        ∃ h ∈ anchors, pyEndsWith (pyLower h) ".pdf" = true ∧
          u = cfg.join cur h) ∧
    (∀ (cfg : CrawlConfig) (urls : List String) (mp : Nat),
      (run_scraper cfg urls mp).2.Nodup) ∧
    (∀ (cfg : CrawlConfig) (urls : List String) (mp : Nat),
      (run_scraper cfg urls mp).2.length ≤
        (run_scraper cfg urls mp).1.pdfs_found) ∧
    (run_scraper cfgC10 ["http://s.e/a"] 5).1.pdfs_found = 2 ∧
    (run_scraper cfgC10 ["http://s.e/a"] 5).2 = ["http://x.org/d.pdf"] := by
  refine ⟨?_, ?_, ?_, ?_, ?_⟩
  · intro cfg cur anchors u
    unfold extract_pdf_links
    rw [List.mem_dedup, List.mem_map]
    constructor
    · rintro ⟨h, hh, rfl⟩
      rw [List.mem_filter] at hh
      exact ⟨h, hh.1, hh.2, rfl⟩
    · rintro ⟨h, hh, hend, rfl⟩
      exact ⟨h, List.mem_filter.mpr ⟨hh, hend⟩, rfl⟩
  · intro cfg urls mp
    simp only [run_scraper]
    exact List.nodup_dedup _
  · intro cfg urls mp
    simp only [run_scraper]
    have h1 : (((urls.map (runSeed cfg mp)).map
        (·.allPdfLinks)).flatten.dedup).length ≤
        (((urls.map (runSeed cfg mp)).map (·.allPdfLinks)).flatten).length :=
      ((List.dedup_sublist _).length_le)
    have h2 : (((urls.map (runSeed cfg mp)).map
        (·.allPdfLinks)).flatten).length =
        ((urls.map (runSeed cfg mp)).map (·.pdfsFound)).sum := by
      rw [List.length_flatten, List.map_map]
      congr 1
      apply List.map_congr_left
      intro x hx
      obtain ⟨u, -, rfl⟩ := List.mem_map.mp hx
      exact ((crawlInv_runSeed cfg mp u).pdf_len).symm
    omega
  · simp [run_scraper, c10_pdfsFound]
  · simp only [run_scraper, List.map_cons, List.map_nil, c10_allPdfLinks]
    decide

/-- C10 witness: the membership characterization of `claim_C10` applied
to a concrete off-domain PDF href. -/
theorem claim_C10_witness :
    "http://othersite.example/doc.pdf" ∈
      extract_pdf_links cfgScope "https://univ.example/dept"
        ["http://othersite.example/doc.pdf"] :=
  (claim_C10.1 cfgScope "https://univ.example/dept"
      ["http://othersite.example/doc.pdf"]
      "http://othersite.example/doc.pdf").mpr
    ⟨"http://othersite.example/doc.pdf", by decide, by decide, rfl⟩
